import Mathlib

/-!
Shallow embedding of the reconciliation engine of `git_push_stack`
(`src/git_push_stack/__init__.py`).  Python strings are modelled as
`List Char`; Python `dict`s as association lists; `sys.exit(1)` as
`none`/`Option`-failure.  Each definition carries a pointer to the
source lines it embeds.
-/

namespace GitPushStack

/-- Python strings are modelled as lists of characters. -/
abbrev Str := List Char

/-- Source `HeadRef` (line 118): the `head` field of a pull request. -/
structure HeadRef where
  sha : Str
deriving DecidableEq

/-- Source `PullRequest` (lines 122-127): the fields of an open pull
request the program reads. -/
structure PullRequest where
  html_url : Str
  number : Str
  title : Str
  head : HeadRef
  state : Str
deriving DecidableEq

/-- Source `Change` (line 156): the tuple
`(changeid, commit, title, message)` built by `get_local_changes`. -/
structure Change where
  changeid : Str
  commit : Str
  title : Str
  message : Str
deriving DecidableEq

/-- The data `get_local_changes` reads from git for one commit sha
(source lines 164-166): the sha itself, the subject (`%s`) and the
body (`%b`). -/
structure Commit where
  sha : Str
  title : Str
  message : Str
deriving DecidableEq

/-- Source `KnownChangeIDs` (lines 131-133): the Python dict mapping a
`ChangeId` to an open pull request or to `None` (a stack branch with no
associated pull request), modelled as an association list with distinct
keys looked up first-match. -/
abbrev KnownChangeIDs := List (Str × Option PullRequest)

/-- Python `changeid in known_changeids` / `known_changeids.keys()`
lookup: the first entry whose key equals `cid`, if any. -/
def knownLookup (known : KnownChangeIDs) (cid : Str) : Option (Option PullRequest) :=
  (known.find? (fun kv => decide (kv.1 = cid))).map Prod.snd

/-- Python `known_changeids.get(changeid)` (source lines 175, 202, 247,
266): returns `None` both when the key is absent and when the key is
present but mapped to `None`. -/
def knownGet (known : KnownChangeIDs) (cid : Str) : Option PullRequest :=
  (knownLookup known cid).join

/-- Python `known_changeids.keys()` (source line 198). -/
def knownKeys (known : KnownChangeIDs) : List Str :=
  known.map Prod.fst

/-- Python `changeid in known_changeids` (source line 246). -/
def knownHasKey (known : KnownChangeIDs) (cid : Str) : Bool :=
  (knownLookup known cid).isSome

/-! ### The `Change-Id` trailer regular expression

`CHANGEID_RE = re.compile(r"Change-Id: (I[0-9a-z]{40})")` (source
line 40), used via `CHANGEID_RE.findall(message)` (source line 167). -/

/-- The character class `[0-9a-z]` of `CHANGEID_RE`: an ascii digit or
a lowercase ascii letter. -/
def isLowerAlnum (c : Char) : Bool :=
  decide (('0' ≤ c ∧ c ≤ '9') ∨ ('a' ≤ c ∧ c ≤ 'z'))

/-- The fixed keyword of `CHANGEID_RE` before the capture group. -/
def changeidKeyword : Str := "Change-Id: ".data

/-- One attempted match of `CHANGEID_RE` at the head of `s`: on success,
returns the captured group (`I` followed by exactly 40 `[0-9a-z]`
characters) and the remainder of the string after the whole match. -/
def tryMatch (s : Str) : Option (Str × Str) :=
  if s.take changeidKeyword.length = changeidKeyword then
    match s.drop changeidKeyword.length with
    | [] => none
    | c :: rest =>
      if c = 'I' ∧ 40 ≤ rest.length ∧ (rest.take 40).all isLowerAlnum then
        some (c :: rest.take 40, rest.drop 40)
      else none
  else none

/-- Left-to-right, non-overlapping scan of `re.findall`: try a match at
every position; after a match, resume after its end.  `fuel` bounds the
recursion and is always instantiated with the string's length. -/
def changeIdFindAll : Nat → Str → List Str
  | 0, _ => []
  | _ + 1, [] => []
  | fuel + 1, c :: cs =>
    match tryMatch (c :: cs) with
    | some (tok, rest) => tok :: changeIdFindAll fuel rest
    | none => changeIdFindAll fuel cs

/-- Source `CHANGEID_RE.findall(message)` (line 167): every captured
group, leftmost first. -/
def findAll (s : Str) : List Str :=
  changeIdFindAll s.length s

/-! ### The reconciliation planner -/

/-- The per-change classification printed by `get_local_changes`
(source lines 175-187): `to create` / `nothing` / `to update`. -/
inductive PlanAction
  | toCreate
  | nothing
  | toUpdate
deriving DecidableEq

/-- The classification of one local change against the remote index
(source lines 175-187): `pull = known_changeids.get(changeid)`; if
`pull is None` → create; elif `commit == pull["head"]["sha"]` →
nothing; else → update. -/
def classify (known : KnownChangeIDs) (changeid commit : Str) : PlanAction :=
  match knownGet known changeid with
  | none => .toCreate
  | some pull => if commit = pull.head.sha then .nothing else .toUpdate

/-- Source `get_local_changes(commits, known_changeids)` (lines
159-192), restricted to its returned value: for each commit, extract
the last `Change-Id` trailer of the body with
`CHANGEID_RE.findall(message)[-1]`, exiting the run (`none`) when a
commit's body has no trailer (source lines 167-173).  The console
classification on lines 175-189 is modelled separately by `classify`
and does not influence the returned list. -/
def get_local_changes : List Commit → Option (List Change)
  | [] => some []
  | c :: rest =>
    match (findAll c.message).getLast? with
    | none => none
    | some cid =>
      match get_local_changes rest with
      | none => none
      | some l => some (⟨cid, c.sha, c.title, c.message⟩ :: l)

/-- Source `get_changeids_to_delete(changes, known_changeids)` (lines
195-200): `set(known_changeids.keys()) - {changeid for changeid, ...
in changes}`. -/
def get_changeids_to_delete (changes : List Change) (known : KnownChangeIDs) :
    Finset Str :=
  (knownKeys known).toFinset \ (changes.map Change.changeid).toFinset

/-- Source `delete_stack(client, stack_prefix, changeid, known_changeids)`
(source lines 315-333), restricted to its data flow: the branch
`f"git/refs/heads/{stack_prefix}{changeid}"` is deleted, then
`known_changeids[changeid]` is read with an unguarded `[]` lookup
(source line 325); `none` models the `KeyError` that lookup would
raise on an absent key. -/
def delete_stack (pfx : Str) (cid : Str) (known : KnownChangeIDs) : Option Str :=
  (knownLookup known cid).map (fun _ => pfx ++ cid)

/-! ### The comment synchronizer

`create_or_update_comments(client, pulls)` (source lines 214-231). -/

/-- Source `first_line` (line 217). -/
def firstLine : Str := "This pull request is part of a stack:\n".data

/-- The canonical comment body (source lines 218-220): the header line
followed by one `1. {title} ([#{number}]({html_url}))` entry per pull
request, in stack order. -/
def commentBody (pulls : List PullRequest) : Str :=
  firstLine ++
    pulls.foldl
      (fun acc p =>
        acc ++ "1. ".data ++ p.title ++ " ([#".data ++ p.number ++
          "](".data ++ p.html_url ++ "))\n".data)
      []

/-- The write performed on one pull request's comment list. -/
inductive CommentAction
  | patch
  | create
  | noop
deriving DecidableEq

/-- The inner loop of `create_or_update_comments` for one pull request
(source lines 223-231): walk the existing comments (given as their
bodies, in listing order); at the first one starting with
`first_line`, patch it when it differs from `body` and stop; if none
starts with `first_line`, post a new comment (the `for`/`else`).
Returns the action taken and the comment list after it. -/
def syncPullComments (body : Str) : List Str → CommentAction × List Str
  | [] => (.create, [body])
  | c :: cs =>
    if firstLine.isPrefixOf c then
      if c ≠ body then (.patch, body :: cs) else (.noop, c :: cs)
    else
      let r := syncPullComments body cs
      (r.1, c :: r.2)

/-! ### The stack builder

`create_or_update_stack` (source lines 234-312) and the loop of `main`
(source lines 404-426). -/

/-- Which action `create_or_update_stack` reported (source lines
267-293). -/
inductive BuildAction
  | nothing
  | updated
  | created
deriving DecidableEq

/-- One iteration's requests to the hosting API, as issued by
`create_or_update_stack`. -/
structure PublishStep where
  /-- The `stacked_base_branch` passed in and used as the `base` of the
  pull-request create/update payload (source lines 280, 304). -/
  baseBranch : Str
  /-- The `stacked_dest_branch`, the `head` of the payload (source lines
  279, 303). -/
  destBranch : Str
  /-- The `draft` flag passed in (source line 302). -/
  draft : Bool
  /-- Whether the branch ref was force-patched (`changeid in
  known_changeids`, source lines 246-254) as opposed to created
  (source lines 255-262). -/
  branchUpdate : Bool
  /-- The reported action (source lines 267-293). -/
  action : BuildAction
  /-- Whether the GraphQL `markPullRequestReadyForReview` call was
  issued (source lines 285-291): only on update and only when `draft`
  is false. -/
  readyForReview : Bool
  /-- The `title` of the payload. -/
  title : Str
  /-- The `body` of the payload (the commit message plus any
  `Depends-On` suffix added by `main`, source lines 409-411, 420). -/
  message : Str
deriving DecidableEq

/-- Source `create_or_update_stack` (lines 234-312) as a pure function
of its inputs: returns the requests issued and the pull request the
call ends with.  `resp` stands for the pull request parsed from the
API response (`r.json()`, source lines 284, 308) when a pull request
is updated or created; when the action is `nothing` the existing pull
request from `known_changeids` is returned unchanged (source lines
266-268, 312). -/
def create_or_update_stack (known : KnownChangeIDs) (resp : PullRequest)
    (stackedBaseBranch stackedDestBranch : Str) (changeid commit title message : Str)
    (draft : Bool) : PublishStep × PullRequest :=
  match knownGet known changeid with
  | some pull =>
    if pull.head.sha = commit then
      (⟨stackedBaseBranch, stackedDestBranch, draft, knownHasKey known changeid,
        .nothing, false, title, message⟩, pull)
    else
      (⟨stackedBaseBranch, stackedDestBranch, draft, knownHasKey known changeid,
        .updated, !draft, title, message⟩, resp)
  | none =>
      (⟨stackedBaseBranch, stackedDestBranch, draft, knownHasKey known changeid,
        .created, false, title, message⟩, resp)

/-- The keyword of the `Depends-On` suffix (source line 411). -/
def dependsOnKeyword : Str := "\n\nDepends-On: #".data

/-- The loop of `main` over `reversed(changes)` (source lines
404-426), carrying `stacked_base_branch`, `draft` and the accumulated
`pulls` across iterations.  `resp k` stands for the API response of
iteration `k` (see `create_or_update_stack`); `changes` here is
already in the processed, oldest-first order. -/
def stackLoop (resp : Nat → PullRequest) (pfx : Str) (known : KnownChangeIDs) :
    Nat → Str → Bool → List PullRequest → List Change → List PublishStep
  | _, _, _, _, [] => []
  | k, base, draft, pulls, ch :: rest =>
    let dependsOn : Str :=
      match pulls.getLast? with
      | none => []
      | some p => dependsOnKeyword ++ p.number
    let dest := pfx ++ ch.changeid
    let r := create_or_update_stack known (resp k) base dest ch.changeid
      ch.commit ch.title (ch.message ++ dependsOn) draft
    r.1 :: stackLoop resp pfx known (k + 1) dest true (pulls ++ [r.2]) rest

/-- The whole builder phase of `main` (source lines 404-426): start
from the upstream `base_branch` with `draft = False` and an empty
`pulls` list, and process the local changes oldest-first
(`reversed(changes)`, source line 408). -/
def buildStack (resp : Nat → PullRequest) (pfx baseBranch : Str)
    (known : KnownChangeIDs) (changes : List Change) : List PublishStep :=
  stackLoop resp pfx known 0 baseBranch false [] changes.reverse

/-! ### Branch naming -/

/-- Source `stacked_dest_branch = f"{stack_prefix}{changeid}"` (line
412). -/
def stackBranch (pfx cid : Str) : Str := pfx ++ cid

/-- Source `get_changeid_and_pull` branch parsing (lines 139-140):
strip `refs/heads/` from the ref, then strip the stack prefix. -/
def refToChangeId (pfx ref : Str) : Str :=
  (ref.drop ("refs/heads/".data).length).drop pfx.length

/-- The shape of the capture group of `CHANGEID_RE`: `I` followed by
exactly 40 characters of `[0-9a-z]`. -/
def tokenShape : Str → Bool
  | [] => false
  | c :: rest => decide (c = 'I') && decide (rest.length = 40) && rest.all isLowerAlnum

/-! ### The alphabet named by the specification

The specification describes the token of `CHANGEID_RE` as "a capital
letter followed by 40 lowercase-hex characters"; these two definitions
follow the specification's words, to be compared with the implemented
alphabet `isLowerAlnum`. -/

/-- Modelled from the spec's words: a lowercase hexadecimal digit. -/
def isLowerHex (c : Char) : Bool :=
  decide (('0' ≤ c ∧ c ≤ '9') ∨ ('a' ≤ c ∧ c ≤ 'f'))

/-- Modelled from the spec's words: a capital (uppercase ascii)
letter. -/
def isCapital (c : Char) : Bool :=
  decide ('A' ≤ c ∧ c ≤ 'Z')

/-! ### Concrete sample values, used by the witness theorems -/

/-- A sample pull request standing for an API response. -/
def prW : PullRequest := ⟨"u".data, "7".data, "t".data, ⟨"s".data⟩, "open".data⟩

/-- A sample local change carrying identifier `i` (oldest). -/
def chA : Change := ⟨['i'], ['c'], ['t'], ['m']⟩

/-- A sample local change carrying identifier `j` (newest). -/
def chB : Change := ⟨['j'], ['d'], ['t'], ['m']⟩

/-- The first publish step of `buildStack (fun _ => prW) ['p'] ['b'] []
[chB, chA]`. -/
def stepW0 : PublishStep :=
  ⟨['b'], ['p', 'i'], false, false, .created, false, ['t'], ['m']⟩

/-- The second publish step of `buildStack (fun _ => prW) ['p'] ['b'] []
[chB, chA]`. -/
def stepW1 : PublishStep :=
  ⟨['p', 'i'], ['p', 'j'], true, false, .created, false, ['t'],
    ['m'] ++ dependsOnKeyword ++ "7".data⟩

/-! ## Helper lemmas -/

/-- Membership in the delete set is exactly: a key of the index not
carried by any local change. -/
theorem mem_toDelete (changes : List Change) (known : KnownChangeIDs) (cid : Str) :
    cid ∈ get_changeids_to_delete changes known ↔
      cid ∈ knownKeys known ∧ ∀ ch ∈ changes, ch.changeid ≠ cid := by
  simp only [get_changeids_to_delete, Finset.mem_sdiff, List.mem_toFinset,
    List.mem_map, not_exists, not_and, ne_eq, knownKeys]

/-- Function `get_local_changes` fails exactly when some commit's body carries no
`Change-Id` trailer. -/
theorem get_local_changes_none_iff (commits : List Commit) :
    get_local_changes commits = none ↔ ∃ c ∈ commits, findAll c.message = [] := by
  induction commits with
  | nil => simp [get_local_changes]
  | cons c rest ih =>
    simp only [get_local_changes]
    rcases h1 : (findAll c.message).getLast? with _ | cid
    · have hc : findAll c.message = [] := by
        cases hh : findAll c.message with
        | nil => rfl
        | cons x xs => rw [hh] at h1; simp [List.getLast?] at h1
      constructor
      · intro _; exact ⟨c, List.mem_cons_self c rest, hc⟩
      · intro _; rfl
    · have hc : findAll c.message ≠ [] := by
        intro hh; rw [hh] at h1; simp at h1
      rcases h2 : get_local_changes rest with _ | l
      · constructor
        · intro _
          obtain ⟨d, hd, hfd⟩ := ih.mp h2
          exact ⟨d, List.mem_cons_of_mem c hd, hfd⟩
        · intro _; rfl
      · constructor
        · intro hfalse; exact absurd hfalse (by simp)
        · rintro ⟨d, hd, hfd⟩
          rcases List.mem_cons.mp hd with hd | hd
          · exact absurd hfd (hd ▸ hc)
          · have hrest : get_local_changes rest = none :=
              ih.mpr ⟨d, hd, hfd⟩
            rw [h2] at hrest
            exact absurd hrest (by simp)

/-- The changes returned by `get_local_changes` pair each commit, in
order, with the last `Change-Id` trailer of its body. -/
theorem get_local_changes_some_spec (commits : List Commit) :
    ∀ l, get_local_changes commits = some l →
      l.length = commits.length ∧
      ∀ (i : Nat) (c : Commit) (ch : Change),
        commits[i]? = some c → l[i]? = some ch →
        (findAll c.message).getLast? = some ch.changeid ∧ ch.commit = c.sha := by
  induction commits with
  | nil =>
    intro l hl
    simp only [get_local_changes, Option.some.injEq] at hl
    subst hl
    simp
  | cons c rest ih =>
    intro l hl
    simp only [get_local_changes] at hl
    rcases h1 : (findAll c.message).getLast? with _ | cid
    · rw [h1] at hl; exact absurd hl (by simp)
    · rw [h1] at hl
      rcases h2 : get_local_changes rest with _ | l'
      · rw [h2] at hl; exact absurd hl (by simp)
      · rw [h2] at hl
        simp only [Option.some.injEq] at hl
        subst hl
        obtain ⟨hlen, hspec⟩ := ih l' h2
        refine ⟨by simp [hlen], ?_⟩
        intro i cc ch hc hch
        cases i with
        | zero =>
          simp only [List.getElem?_cons_zero, Option.some.injEq] at hc hch
          subst hc; subst hch
          exact ⟨h1, rfl⟩
        | succ n =>
          simp only [List.getElem?_cons_succ] at hc hch
          exact hspec n cc ch hc hch

/-- Unfolding one scan step of `changeIdFindAll`. -/
theorem changeIdFindAll_cons (fuel : Nat) (c : Char) (cs : Str) :
    changeIdFindAll (fuel + 1) (c :: cs) =
      match tryMatch (c :: cs) with
      | some (tok, rest) => tok :: changeIdFindAll fuel rest
      | none => changeIdFindAll fuel cs := rfl

/-- A whole match of `CHANGEID_RE` spans 52 characters, so no string
shorter than that matches at its head. -/
theorem tryMatch_none_of_short (s : Str) (h : s.length < 52) : tryMatch s = none := by
  unfold tryMatch
  split
  · rename_i hkw
    split
    · rfl
    · rename_i c rest hdrop
      split
      · rename_i hcond
        exfalso
        obtain ⟨-, hlen40, -⟩ := hcond
        have hkl : changeidKeyword.length = 11 := by decide
        have h1 : 11 ≤ s.length := by
          have hlt := congrArg List.length hkw
          rw [List.length_take, hkl] at hlt
          omega
        have h2 : (s.drop changeidKeyword.length).length = rest.length + 1 := by
          rw [hdrop]; simp
        rw [List.length_drop, hkl] at h2
        omega
      · rfl
  · rfl

/-- No string shorter than a whole match scans to any capture at
all. -/
theorem changeIdFindAll_short :
    ∀ (fuel : Nat) (s : Str), s.length < 52 → changeIdFindAll fuel s = [] := by
  intro fuel
  induction fuel with
  | zero => intro s _; rfl
  | succ n ih =>
    intro s h
    cases s with
    | nil => rfl
    | cons c cs =>
      rw [changeIdFindAll_cons, tryMatch_none_of_short (c :: cs) h]
      exact ih cs (by simp at h ⊢; omega)

/-- Matching right after the keyword succeeds exactly on a token of
the implemented shape. -/
theorem tryMatch_keyword (t : Str) (h : t.length = 41) :
    tryMatch (changeidKeyword ++ t) =
      if tokenShape t = true then some (t, []) else none := by
  unfold tryMatch
  rw [List.take_left, if_pos rfl, List.drop_left]
  cases t with
  | nil => simp at h
  | cons c rest =>
    have hr : rest.length = 40 := by simpa using h
    have htake : rest.take 40 = rest := List.take_of_length_le (le_of_eq hr)
    have hdrop : rest.drop 40 = [] := List.drop_eq_nil_of_le (le_of_eq hr)
    by_cases hc : c = 'I' <;> by_cases ha : rest.all isLowerAlnum = true <;>
      simp [tokenShape, htake, hdrop, hr, hc, ha]

/-- Scanning a message that is the keyword followed by a 41-character
token: the token is captured exactly when it has the implemented
shape. -/
theorem findAll_keyword_token (t : Str) (h : t.length = 41) :
    findAll (changeidKeyword ++ t) = if tokenShape t = true then [t] else [] := by
  have hcons : changeidKeyword ++ t = 'C' :: ("hange-Id: ".data ++ t) := rfl
  have hlen : (changeidKeyword ++ t).length = 51 + 1 := by
    simp [changeidKeyword, h]
  unfold findAll
  rw [hlen, hcons, changeIdFindAll_cons, ← hcons, tryMatch_keyword t h]
  by_cases hts : tokenShape t = true
  · rw [if_pos hts, if_pos hts]
    show t :: changeIdFindAll 51 [] = [t]
    rfl
  · rw [if_neg hts, if_neg hts]
    show changeIdFindAll 51 ("hange-Id: ".data ++ t) = []
    refine changeIdFindAll_short 51 _ ?_
    simp only [List.length_append, h]
    decide

/-- The fields of the publish step issued by one
`create_or_update_stack` call: base, head and draft are passed
through, and the ready-for-review call is issued exactly on an update
with the draft flag down. -/
theorem create_or_update_stack_fields (known : KnownChangeIDs) (resp : PullRequest)
    (base dest cid commit title msg : Str) (draft : Bool) :
    (create_or_update_stack known resp base dest cid commit title msg draft).1.baseBranch = base ∧
    (create_or_update_stack known resp base dest cid commit title msg draft).1.destBranch = dest ∧
    (create_or_update_stack known resp base dest cid commit title msg draft).1.draft = draft ∧
    (create_or_update_stack known resp base dest cid commit title msg draft).1.readyForReview =
      (decide ((create_or_update_stack known resp base dest cid commit title msg draft).1.action =
        BuildAction.updated) && !draft) := by
  unfold create_or_update_stack
  rcases knownGet known cid with _ | pull
  · simp
  · by_cases hs : pull.head.sha = commit <;> simp [hs]

/-- The builder plan has one step per change. -/
theorem stackLoop_length (resp : Nat → PullRequest) (pfx : Str) (known : KnownChangeIDs) :
    ∀ (l : List Change) (k : Nat) (base : Str) (draft : Bool) (pulls : List PullRequest),
      (stackLoop resp pfx known k base draft pulls l).length = l.length := by
  intro l
  induction l with
  | nil => intro k base draft pulls; rfl
  | cons ch rest ih =>
    intro k base draft pulls
    simp only [stackLoop]
    simp [ih]

/-- Invariant of the builder loop: step `i` targets the branch
`pfx ++ changeid_i`; its draft flag is the incoming one for `i = 0`
and `true` afterwards; its base is the incoming base for `i = 0` and
the previous step's destination branch afterwards; and the
ready-for-review call is issued exactly on an update with the draft
flag down. -/
theorem stackLoop_step_spec (resp : Nat → PullRequest) (pfx : Str) (known : KnownChangeIDs) :
    ∀ (l : List Change) (k : Nat) (base : Str) (draft : Bool) (pulls : List PullRequest)
      (i : Nat) (p : PublishStep),
      (stackLoop resp pfx known k base draft pulls l)[i]? = some p →
      (∃ c, l[i]? = some c ∧ p.destBranch = pfx ++ c.changeid) ∧
      p.draft = (if i = 0 then draft else true) ∧
      (i = 0 → p.baseBranch = base) ∧
      (∀ j, i = j + 1 → ∃ c, l[j]? = some c ∧ p.baseBranch = pfx ++ c.changeid) ∧
      p.readyForReview = (decide (p.action = BuildAction.updated) && !p.draft) := by
  intro l
  induction l with
  | nil =>
    intro k base draft pulls i p hp
    simp [stackLoop] at hp
  | cons ch rest ih =>
    intro k base draft pulls i p hp
    simp only [stackLoop] at hp
    cases i with
    | zero =>
      rw [List.getElem?_cons_zero, Option.some.injEq] at hp
      obtain ⟨F1, F2, F3, F4⟩ := create_or_update_stack_fields known (resp k) base
        (pfx ++ ch.changeid) ch.changeid ch.commit ch.title
        (ch.message ++ match pulls.getLast? with
          | none => []
          | some pr => dependsOnKeyword ++ pr.number) draft
      subst hp
      refine ⟨⟨ch, by simp, F2⟩, by simpa using F3, fun _ => F1, ?_, by rw [F4, F3]⟩
      intro j hj
      exact absurd hj (by simp)
    | succ n =>
      rw [List.getElem?_cons_succ] at hp
      obtain ⟨H1, H2, H3, H4, H5⟩ :=
        ih (k + 1) (pfx ++ ch.changeid) true _ n p hp
      refine ⟨?_, ?_, ?_, ?_, H5⟩
      · obtain ⟨c, hc, hd⟩ := H1
        exact ⟨c, by simpa using hc, hd⟩
      · have : p.draft = true := by
          rcases Nat.eq_zero_or_pos n with h0 | h0
          · simpa [h0] using H2
          · have : n ≠ 0 := Nat.pos_iff_ne_zero.mp h0
            simpa [this] using H2
        simpa using this
      · intro h; exact absurd h (by simp)
      · intro j hj
        have hjn : j = n := by omega
        subst hjn
        cases j with
        | zero => exact ⟨ch, by simp, H3 rfl⟩
        | succ m =>
          obtain ⟨c, hc, hb⟩ := H4 m rfl
          exact ⟨c, by simpa using hc, hb⟩

/-- The canonical comment body starts with the fixed header line. -/
theorem firstLine_prefix_commentBody (pulls : List PullRequest) :
    firstLine.isPrefixOf (commentBody pulls) = true := by
  rw [List.isPrefixOf_iff_prefix]
  show firstLine <+: firstLine ++ _
  exact List.prefix_append firstLine _

/-- The action of the per-pull comment loop, phrased through the first
comment starting with the header line. -/
theorem syncPullComments_action (body : Str) :
    ∀ comments : List Str,
      (syncPullComments body comments).1 =
        match comments.find? (fun c => firstLine.isPrefixOf c) with
        | none => CommentAction.create
        | some c => if c = body then CommentAction.noop else CommentAction.patch := by
  intro comments
  induction comments with
  | nil => rfl
  | cons c cs ih =>
    by_cases h : firstLine.isPrefixOf c = true
    · have h' : firstLine <+: c := List.isPrefixOf_iff_prefix.mp h
      by_cases hb : c = body
      · subst hb
        simp [syncPullComments, List.find?_cons, h, h']
      · simp [syncPullComments, List.find?_cons, h, h', hb]
    · have h' : ¬ firstLine <+: c := fun hp => h (List.isPrefixOf_iff_prefix.mpr hp)
      simp [syncPullComments, List.find?_cons, h, h', ih]

/-- Re-running the per-pull comment loop on the comment list it just
produced is a no-op, for any body starting with the header line. -/
theorem syncPullComments_idem (body : Str) (hb : firstLine.isPrefixOf body = true) :
    ∀ comments : List Str,
      (syncPullComments body (syncPullComments body comments).2).1 =
        CommentAction.noop := by
  intro comments
  have hb' : firstLine <+: body := List.isPrefixOf_iff_prefix.mp hb
  induction comments with
  | nil => simp [syncPullComments, hb, hb']
  | cons c cs ih =>
    by_cases h : firstLine.isPrefixOf c = true
    · have h' : firstLine <+: c := List.isPrefixOf_iff_prefix.mp h
      by_cases hcb : c = body
      · simp [syncPullComments, h, h', hcb, hb, hb']
      · simp [syncPullComments, h, h', hcb, hb, hb']
    · have h' : ¬ firstLine <+: c := fun hp => h (List.isPrefixOf_iff_prefix.mpr hp)
      simp [syncPullComments, h, h', ih]

/-! ## Claim theorems -/

/-- C1 (counterexample): a local change whose identifier is a key of
the index mapped to `None` (a stack branch with no open pull request)
is classified `to create` even though the identifier is **not** absent
from the index — the claim's create-iff-absent direction is false, and
its three cases are not exhaustive over the index's actual values. -/
theorem classify_counterexample :
    classify [(('I' :: List.replicate 40 'a'), none)]
        ('I' :: List.replicate 40 'a') ['d'] = PlanAction.toCreate ∧
    knownHasKey [(('I' :: List.replicate 40 'a'), none)]
        ('I' :: List.replicate 40 'a') = true := by
  decide

/-- C1 (amended): the plan classifies each local change exactly one
way: `nothing` iff `known_changeids.get` yields a pull request whose
head sha equals the change's commit sha; `to update` iff it yields a
pull request with a differing head sha; `to create` iff it yields no
pull request — that is, iff the identifier is absent from the index
**or** present but mapped to no pull request.  The three cases are
exhaustive and mutually exclusive. -/
theorem classify_cases (known : KnownChangeIDs) (cid commit : Str) :
    (classify known cid commit = PlanAction.nothing ↔
      ∃ p, knownGet known cid = some p ∧ p.head.sha = commit) ∧
    (classify known cid commit = PlanAction.toUpdate ↔
      ∃ p, knownGet known cid = some p ∧ p.head.sha ≠ commit) ∧
    (classify known cid commit = PlanAction.toCreate ↔
      knownGet known cid = none) ∧
    (knownGet known cid = none ↔
      knownLookup known cid = none ∨ knownLookup known cid = some none) := by
  refine ⟨?_, ?_, ?_, ?_⟩
  · unfold classify
    rcases h : knownGet known cid with _ | p
    · simp
    · by_cases hs : commit = p.head.sha
      · simp [hs]
      · simp [hs, eq_comm]
  · unfold classify
    rcases h : knownGet known cid with _ | p
    · simp
    · by_cases hs : commit = p.head.sha
      · simp [hs]
      · simp [hs, eq_comm]
  · unfold classify
    rcases h : knownGet known cid with _ | p
    · simp
    · by_cases hs : commit = p.head.sha <;> simp [hs]
  · unfold knownGet
    rcases h : knownLookup known cid with _ | v
    · simp
    · cases v <;> simp

/-- C2: the delete set is exactly the set difference between the keys
of the remote index and the identifiers of the local changes — every
index key not carried by a local change is scheduled (whatever it is
mapped to, including `None`), and no local identifier ever is. -/
theorem changeids_to_delete_exact (changes : List Change) (known : KnownChangeIDs)
    (cid : Str) :
    cid ∈ get_changeids_to_delete changes known ↔
      cid ∈ knownKeys known ∧ ∀ ch ∈ changes, ch.changeid ≠ cid :=
  mem_toDelete changes known cid

/-- C5 (counterexample): two local commits carrying the same
`Change-Id` trailer pass through `get_local_changes` without any
error: the run does not fail, and both changes — with equal
identifiers — are returned for publication. -/
theorem duplicate_identifier_counterexample :
    get_local_changes
        [⟨['1'], ['t'], changeidKeyword ++ 'I' :: List.replicate 40 'a'⟩,
         ⟨['2'], ['t'], changeidKeyword ++ 'I' :: List.replicate 40 'a'⟩] =
      some
        [⟨'I' :: List.replicate 40 'a', ['1'], ['t'],
            changeidKeyword ++ 'I' :: List.replicate 40 'a'⟩,
         ⟨'I' :: List.replicate 40 'a', ['2'], ['t'],
            changeidKeyword ++ 'I' :: List.replicate 40 'a'⟩] := by
  decide

/-- C5 (amended): duplicate identifiers among local commits are *not*
detected: whenever every commit body carries a `Change-Id` trailer,
`get_local_changes` succeeds — even when two distinct commits carry
the same identifier — and no fatal error is raised. -/
theorem duplicates_pass_through (commits : List Commit) (c1 c2 : Commit)
    (_h1 : c1 ∈ commits) (_h2 : c2 ∈ commits) (_hne : c1.sha ≠ c2.sha)
    (_hdup : (findAll c1.message).getLast? = (findAll c2.message).getLast?)
    (hall : ∀ c ∈ commits, findAll c.message ≠ []) :
    (get_local_changes commits).isSome = true := by
  rw [← Option.ne_none_iff_isSome]
  intro hnone
  obtain ⟨c, hc, hfc⟩ := (get_local_changes_none_iff commits).mp hnone
  exact hall c hc hfc

/-- Witness for C5: a concrete pair of commits with the same trailer
for which the run succeeds. -/
theorem duplicates_pass_through_witness :
    (get_local_changes
        [⟨['1'], ['t'], changeidKeyword ++ 'I' :: List.replicate 40 'a'⟩,
         ⟨['2'], ['t'], changeidKeyword ++ 'I' :: List.replicate 40 'a'⟩]).isSome =
      true :=
  duplicates_pass_through
    [⟨['1'], ['t'], changeidKeyword ++ 'I' :: List.replicate 40 'a'⟩,
     ⟨['2'], ['t'], changeidKeyword ++ 'I' :: List.replicate 40 'a'⟩]
    ⟨['1'], ['t'], changeidKeyword ++ 'I' :: List.replicate 40 'a'⟩
    ⟨['2'], ['t'], changeidKeyword ++ 'I' :: List.replicate 40 'a'⟩
    (by decide) (by decide) (by decide) (by decide) (by decide)

/-- C6 (counterexample): the claimed token alphabet is wrong in both
directions.  `A` followed by 40 lowercase-hex characters — a capital
letter followed by 40 lowercase-hex characters — is *not* matched
after the keyword; while `I` followed by 40 `z`s *is* matched although
`z` lies outside the lowercase-hex alphabet. -/
theorem changeid_token_counterexample :
    (isCapital 'A' = true ∧ (List.replicate 40 '0').all isLowerHex = true ∧
      findAll (changeidKeyword ++ 'A' :: List.replicate 40 '0') = []) ∧
    (isLowerHex 'z' = false ∧
      findAll (changeidKeyword ++ 'I' :: List.replicate 40 'z') =
        ['I' :: List.replicate 40 'z']) := by
  decide

/-- C6 (amended): the identifier token accepted by `CHANGEID_RE` is
exactly the literal capital `I` followed by 40 characters of
`[0-9a-z]` (lowercase ascii letters and digits, not lowercase hex):
a 41-character token after the keyword is captured iff its head is
`I` and its 40 remaining characters all lie in `[0-9a-z]`. -/
theorem changeid_token_alphabet (t : Str) (h : t.length = 41) :
    (findAll (changeidKeyword ++ t) = [t] ↔ tokenShape t = true) ∧
    (tokenShape t = true ↔
      t.head? = some 'I' ∧ (t.drop 1).all isLowerAlnum = true) := by
  constructor
  · rw [findAll_keyword_token t h]
    by_cases hts : tokenShape t = true
    · simp [hts]
    · simp [hts]
  · cases t with
    | nil => simp at h
    | cons c rest =>
      have hr : rest.length = 40 := by simpa using h
      simp [tokenShape, hr]

/-- Witness for C6: a concrete in-alphabet token is captured. -/
theorem changeid_token_alphabet_witness :
    findAll (changeidKeyword ++ 'I' :: List.replicate 40 '0') =
      ['I' :: List.replicate 40 '0'] :=
  ((changeid_token_alphabet ('I' :: List.replicate 40 '0') (by decide)).1).mpr
    (by decide)

/-- C7: for every commit body, the extractor of `get_local_changes`
returns the *last* captured `Change-Id` trailer occurrence
(`changeids[-1]`, source line 173), and the whole run fails (`none`,
modelling `sys.exit(1)`, source lines 168-172) exactly when some
commit's body contains no trailer. -/
theorem changeid_extractor_last_occurrence (commits : List Commit) :
    (get_local_changes commits = none ↔
      ∃ c ∈ commits, findAll c.message = []) ∧
    ∀ l, get_local_changes commits = some l →
      l.length = commits.length ∧
      ∀ (i : Nat) (c : Commit) (ch : Change),
        commits[i]? = some c → l[i]? = some ch →
        (findAll c.message).getLast? = some ch.changeid :=
  ⟨get_local_changes_none_iff commits,
   fun l hl =>
     ⟨(get_local_changes_some_spec commits l hl).1,
      fun i c ch hc hch =>
        ((get_local_changes_some_spec commits l hl).2 i c ch hc hch).1⟩⟩

/-- Witness for C7: a body with two trailers (an amended commit)
resolves to the second — most recent — occurrence. -/
theorem changeid_extractor_last_occurrence_witness :
    (findAll (changeidKeyword ++ ('I' :: List.replicate 40 'a') ++
        changeidKeyword ++ ('I' :: List.replicate 40 'b'))).getLast? =
      some ('I' :: List.replicate 40 'b') :=
  ((changeid_extractor_last_occurrence
      [⟨['c'], ['t'],
        changeidKeyword ++ ('I' :: List.replicate 40 'a') ++
          changeidKeyword ++ ('I' :: List.replicate 40 'b')⟩]).2
    [⟨'I' :: List.replicate 40 'b', ['c'], ['t'],
      changeidKeyword ++ ('I' :: List.replicate 40 'a') ++
        changeidKeyword ++ ('I' :: List.replicate 40 'b')⟩]
    (by decide)).2 0
    ⟨['c'], ['t'],
      changeidKeyword ++ ('I' :: List.replicate 40 'a') ++
        changeidKeyword ++ ('I' :: List.replicate 40 'b')⟩
    ⟨'I' :: List.replicate 40 'b', ['c'], ['t'],
      changeidKeyword ++ ('I' :: List.replicate 40 'a') ++
        changeidKeyword ++ ('I' :: List.replicate 40 'b')⟩
    (by decide) (by decide)

/-- C3: chain integrity.  The builder (the loop of `main`, source
lines 404-426, processing the local changes oldest-first) emits one
step per change; the first step's base branch is the original upstream
base branch, and every later step's base branch is exactly the
previous step's destination (head) branch, which is the stack prefix
followed by the previous change's identifier. -/
theorem stack_chain_integrity (resp : Nat → PullRequest) (pfx baseBranch : Str)
    (known : KnownChangeIDs) (changes : List Change) :
    (buildStack resp pfx baseBranch known changes).length = changes.length ∧
    (∀ p, (buildStack resp pfx baseBranch known changes)[0]? = some p →
      p.baseBranch = baseBranch) ∧
    (∀ (i : Nat) (p q : PublishStep),
      (buildStack resp pfx baseBranch known changes)[i]? = some p →
      (buildStack resp pfx baseBranch known changes)[i + 1]? = some q →
      q.baseBranch = p.destBranch) ∧
    (∀ (i : Nat) (p : PublishStep) (c : Change),
      (buildStack resp pfx baseBranch known changes)[i]? = some p →
      changes.reverse[i]? = some c →
      p.destBranch = pfx ++ c.changeid) := by
  refine ⟨?_, ?_, ?_, ?_⟩
  · unfold buildStack
    rw [stackLoop_length]
    exact List.length_reverse changes
  · intro p hp
    exact (stackLoop_step_spec resp pfx known changes.reverse 0 baseBranch false []
      0 p hp).2.2.1 rfl
  · intro i p q hp hq
    obtain ⟨c, hc, hdest⟩ := (stackLoop_step_spec resp pfx known changes.reverse
      0 baseBranch false [] i p hp).1
    obtain ⟨c', hc', hbase⟩ := (stackLoop_step_spec resp pfx known changes.reverse
      0 baseBranch false [] (i + 1) q hq).2.2.2.1 i rfl
    rw [hc] at hc'
    cases hc'
    rw [hdest, hbase]
  · intro i p c hp hc
    obtain ⟨c', hc', hdest⟩ := (stackLoop_step_spec resp pfx known changes.reverse
      0 baseBranch false [] i p hp).1
    rw [hc] at hc'
    cases hc'
    exact hdest

/-- C4: draft invariant.  On one run of the builder, exactly the first
(oldest) step carries `draft = false`, and its explicit
ready-for-review call is issued iff its action is an update; every
later step carries `draft = true` (the flag, once raised after the
first iteration, is never reset) and never issues a ready-for-review
call. -/
theorem stack_draft_invariant (resp : Nat → PullRequest) (pfx baseBranch : Str)
    (known : KnownChangeIDs) (changes : List Change) :
    (∀ p, (buildStack resp pfx baseBranch known changes)[0]? = some p →
      p.draft = false ∧
      (p.readyForReview = true ↔ p.action = BuildAction.updated)) ∧
    (∀ (i : Nat) (p : PublishStep),
      (buildStack resp pfx baseBranch known changes)[i + 1]? = some p →
      p.draft = true ∧ p.readyForReview = false) := by
  constructor
  · intro p hp
    have H := stackLoop_step_spec resp pfx known changes.reverse 0 baseBranch false []
      0 p hp
    have hd : p.draft = false := by simpa using H.2.1
    refine ⟨hd, ?_⟩
    rw [H.2.2.2.2, hd]
    simp
  · intro i p hp
    have H := stackLoop_step_spec resp pfx known changes.reverse 0 baseBranch false []
      (i + 1) p hp
    have hd : p.draft = true := by simpa using H.2.1
    refine ⟨hd, ?_⟩
    rw [H.2.2.2.2, hd]
    simp

/-- Witness for C3: a two-change stack over an empty index — the first
step bases on the upstream branch, the second on the head branch of
the first, which is the prefix followed by the older change's
identifier. -/
theorem stack_chain_integrity_witness :
    stepW0.baseBranch = ['b'] ∧ stepW1.baseBranch = stepW0.destBranch ∧
    stepW0.destBranch = ['p'] ++ chA.changeid := by
  refine ⟨?_, ?_, ?_⟩
  · exact (stack_chain_integrity (fun _ => prW) ['p'] ['b'] [] [chB, chA]).2.1
      stepW0 (by decide)
  · exact (stack_chain_integrity (fun _ => prW) ['p'] ['b'] [] [chB, chA]).2.2.1
      0 stepW0 stepW1 (by decide) (by decide)
  · exact (stack_chain_integrity (fun _ => prW) ['p'] ['b'] [] [chB, chA]).2.2.2
      0 stepW0 chA (by decide) (by decide)

/-- Witness for C4: on the same two-change stack, the first step is
non-draft (and, being a create, issues no ready-for-review call) and
the second is draft with no ready-for-review call. -/
theorem stack_draft_invariant_witness :
    (stepW0.draft = false ∧
      (stepW0.readyForReview = true ↔ stepW0.action = BuildAction.updated)) ∧
    (stepW1.draft = true ∧ stepW1.readyForReview = false) :=
  ⟨(stack_draft_invariant (fun _ => prW) ['p'] ['b'] [] [chB, chA]).1
      stepW0 (by decide),
   (stack_draft_invariant (fun _ => prW) ['p'] ['b'] [] [chB, chA]).2
      0 stepW1 (by decide)⟩

/-- C8: the comment synchronizer is idempotent.  For one pull
request's comment list and the canonical stack body: the loop patches
iff the summary comment — the first comment starting with the fixed
header line — exists and differs from the canonical body; it performs
no write iff that comment exists with an identical body; it creates
the comment iff no comment starts with the header line; and re-running
the loop on the resulting comment list always performs zero writes. -/
theorem comment_sync_idempotent (pulls : List PullRequest) (comments : List Str) :
    ((syncPullComments (commentBody pulls) comments).1 = CommentAction.create ↔
      ∀ c ∈ comments, firstLine.isPrefixOf c = false) ∧
    ((syncPullComments (commentBody pulls) comments).1 = CommentAction.noop ↔
      comments.find? (fun c => firstLine.isPrefixOf c) = some (commentBody pulls)) ∧
    ((syncPullComments (commentBody pulls) comments).1 = CommentAction.patch ↔
      ∃ c, comments.find? (fun c => firstLine.isPrefixOf c) = some c ∧
        c ≠ commentBody pulls) ∧
    (syncPullComments (commentBody pulls)
        (syncPullComments (commentBody pulls) comments).2).1 = CommentAction.noop := by
  refine ⟨?_, ?_, ?_,
    syncPullComments_idem (commentBody pulls) (firstLine_prefix_commentBody pulls) comments⟩
  all_goals rw [syncPullComments_action]
  · rcases h : comments.find? (fun c => firstLine.isPrefixOf c) with _ | c
    · rw [List.find?_eq_none] at h
      simp only [Bool.not_eq_true] at h
      exact iff_of_true rfl h
    · have hc := List.find?_some h
      have hmem := List.mem_of_find?_eq_some h
      apply iff_of_false
      · by_cases hb : c = commentBody pulls <;> simp [hb]
      · intro hall
        have h2 := hall c hmem
        simp only at hc
        rw [hc] at h2
        exact absurd h2 (by simp)
  · rcases h : comments.find? (fun c => firstLine.isPrefixOf c) with _ | c
    · apply iff_of_false
      · simp
      · simp
    · by_cases hb : c = commentBody pulls
      · subst hb
        apply iff_of_true
        · simp
        · rfl
      · apply iff_of_false
        · simp [hb]
        · simp [hb]
  · rcases h : comments.find? (fun c => firstLine.isPrefixOf c) with _ | c
    · apply iff_of_false
      · simp
      · rintro ⟨d, hd, -⟩
        exact absurd hd (by simp)
    · by_cases hb : c = commentBody pulls
      · subst hb
        apply iff_of_false
        · simp
        · rintro ⟨d, hd, hne⟩
          rw [Option.some.injEq] at hd
          exact hne hd.symm
      · apply iff_of_true
        · simp [hb]
        · exact ⟨c, rfl, hb⟩

/-- C9: branch naming round-trips.  For every identifier of the shape
accepted by `CHANGEID_RE`, formatting the stack branch as the prefix
followed by the identifier (`main`, source line 412) and parsing it
back by stripping `refs/heads/` and then the prefix
(`get_changeid_and_pull`, source lines 139-140) recovers the original
identifier. -/
theorem stack_branch_roundtrip (pfx cid : Str) (_h : tokenShape cid = true) :
    refToChangeId pfx ("refs/heads/".data ++ stackBranch pfx cid) = cid := by
  unfold refToChangeId stackBranch
  rw [List.drop_left, List.drop_left]

/-- Witness for C9: round-trip at a concrete prefix and identifier. -/
theorem stack_branch_roundtrip_witness :
    refToChangeId ['p']
        ("refs/heads/".data ++ stackBranch ['p'] ('I' :: List.replicate 40 'a')) =
      'I' :: List.replicate 40 'a' :=
  stack_branch_roundtrip ['p'] ('I' :: List.replicate 40 'a') (by decide)

/-- C10: every identifier in the delete set is a key of the remote
index, so the unguarded `known_changeids[changeid]` lookup of
`delete_stack` (source line 325) always succeeds and the branch
`stack_prefix + changeid` is deleted. -/
theorem delete_stack_safe (pfx : Str) (changes : List Change)
    (known : KnownChangeIDs) (cid : Str)
    (h : cid ∈ get_changeids_to_delete changes known) :
    delete_stack pfx cid known = some (pfx ++ cid) := by
  have hk : cid ∈ knownKeys known := ((mem_toDelete changes known cid).mp h).1
  simp only [knownKeys, List.mem_map] at hk
  obtain ⟨kv, hkv, hfst⟩ := hk
  have hsome : (known.find? (fun kv => decide (kv.1 = cid))).isSome = true := by
    rw [List.find?_isSome]
    exact ⟨kv, hkv, by simp [hfst]⟩
  obtain ⟨v, hv⟩ := Option.isSome_iff_exists.mp hsome
  simp [delete_stack, knownLookup, hv]

/-- Witness for C10: a concrete index with an orphaned key (mapped to
`None`) and no local changes — the lookup succeeds and the branch is
deleted. -/
theorem delete_stack_safe_witness :
    delete_stack ['p'] ['a'] [(['a'], none)] = some ['p', 'a'] :=
  delete_stack_safe ['p'] [] [(['a'], none)] ['a'] (by decide)

end GitPushStack
